import Mathlib

/-!
Verification of the chunked-transcription pipeline
(`backend/chunked_transcription.py`) of the LinguaMaster repository.

Modelling conventions:
* times (Python floats) are exact rationals `ℚ`;
* a segment dict is a structure whose transient `chunk_index` key is an
  `Option Nat` (`none` = key absent);
* file paths are `String`s; the per-source scratch directory
  (`Path(temp_dir) / audio_path.stem` in the source) is passed in as a
  `chunkDir` parameter;
* `str.strip()` is modelled by dropping whitespace characters on both
  ends of the character list, `str.endswith` by a list-suffix test
  (the core `String` functions do not reduce in the kernel);
* subprocess effects are modelled by their observable data: the duration
  probe is an `Option ℚ` (`none` = ffprobe failed, matching the
  `except` branch that returns `0.0`), ffmpeg chunk extraction always
  succeeds and is logged as the list of extracted file paths, and
  `os.remove` calls are logged as the list of removed paths;
* the nondeterministic completion order of the thread pool
  (`concurrent.futures.as_completed`) is an explicit `order` parameter,
  constrained to be a permutation of the chunk list in the theorems;
* the whisper provider is a function `String → Except ε (List PSeg)`,
  `.error` modelling a raised exception.
-/

namespace LinguaMaster

/-- A transcription segment as the pipeline's dictionaries hold it:
`index`, `start_time`, `end_time`, `text`, and the transient
`chunk_index` key (absent = `none`). -/
structure Seg where
  index : Nat
  start_time : ℚ
  end_time : ℚ
  text : String
  chunk_index : Option Nat
deriving DecidableEq, Repr

/-- A segment as returned by a whisper provider
(`TranscriptionSegment` in `ai/providers/whisper.py`). -/
structure PSeg where
  index : Nat
  start_time : ℚ
  end_time : ℚ
  text : String
deriving DecidableEq, Repr

/-- `TranscriptionSegment.to_dict`: the produced dict has exactly the keys
`index`, `start_time`, `end_time`, `text` — no `chunk_index` key. -/
def PSeg.to_dict (p : PSeg) : Seg :=
  { index := p.index
    start_time := p.start_time
    end_time := p.end_time
    text := p.text
    chunk_index := none }

/-- `ChunkInfo` from `chunked_transcription.py`. -/
structure ChunkInfo where
  index : Nat
  path : String
  start_time : ℚ
  duration : ℚ
deriving DecidableEq, Repr

/-! ### String helpers (`str.strip`, `str.endswith`) -/

/-- Drop leading and trailing whitespace from a character list. -/
def stripChars (l : List Char) : List Char :=
  ((l.dropWhile Char.isWhitespace).reverse.dropWhile Char.isWhitespace).reverse

/-- Python's `str.strip()` (no argument): remove leading and trailing
whitespace. -/
def pyStrip (s : String) : String := String.mk (stripChars s.data)

/-- Python's `s.endswith(suf)`. -/
def pyEndsWith (s suf : String) : Bool :=
  decide (suf.data.length ≤ s.data.length) &&
  s.data.drop (s.data.length - suf.data.length) == suf.data

/-! ### Segment merger (`_merge_short_segments`) -/

/-- The `sentence_endings` set of `_merge_short_segments`
(ASCII and CJK full-width variants). -/
def sentence_endings : List Char := ['.', '!', '?', '。', '！', '？', '…']

/-- `current_text and current_text[-1] in sentence_endings`:
non-empty and last character in the terminal set. -/
def endsWithTerminal (t : String) : Bool :=
  match t.data.getLast? with
  | some c => sentence_endings.contains c
  | none => false

/-- `should_merge` of `_merge_short_segments` (the code computes
`ends_with_punctuation` on the stripped text `current["text"].strip()`;
the gap bound `1.0` is hard-coded). -/
def shouldMerge (minDur maxDur : ℚ) (current seg : Seg) : Bool :=
  decide (current.end_time - current.start_time < minDur) &&
  !(endsWithTerminal (pyStrip current.text)) &&
  decide (seg.end_time - current.start_time ≤ maxDur) &&
  decide (seg.start_time - current.end_time < 1)

/-- The in-place merge of the loop body:
`current["end_time"] = seg["end_time"];
current["text"] = current["text"].strip() + " " + seg["text"].strip()`. -/
def mergeSegs (current seg : Seg) : Seg :=
  { current with
    end_time := seg.end_time
    text := (pyStrip current.text) ++ " " ++ (pyStrip seg.text) }

/-- The left-to-right loop of `_merge_short_segments`: `current` is the
accumulated segment, the list is the remaining input; the final
`current` is flushed after the loop. -/
def mergeLoop (minDur maxDur : ℚ) (current : Seg) : List Seg → List Seg
  | [] => [current]
  | seg :: rest =>
    if shouldMerge minDur maxDur current seg then
      mergeLoop minDur maxDur (mergeSegs current seg) rest
    else
      current :: mergeLoop minDur maxDur seg rest

/-- `_merge_short_segments(segments, min_duration, max_merged_duration)`
(`current` starts as a copy of the first segment). -/
def merge_short_segments (minDur maxDur : ℚ) : List Seg → List Seg
  | [] => []
  | seg :: rest => mergeLoop minDur maxDur seg rest

/-! ### Timeline reconciler and reindexing (`merge_segments`) -/

/-- The sort key comparison of `sorted(segments, key=lambda s:
s["start_time"])`. -/
def leStart (a b : Seg) : Prop := a.start_time ≤ b.start_time

instance : DecidableRel leStart :=
  fun a b => inferInstanceAs (Decidable (a.start_time ≤ b.start_time))

instance : IsTotal Seg leStart := ⟨fun a b => le_total a.start_time b.start_time⟩

instance : IsTrans Seg leStart := ⟨fun _ _ _ hab hbc => le_trans hab hbc⟩

/-- `sorted(segments, key=lambda s: s["start_time"])`: Python's `sorted`
is the stable sort by the key, i.e. insertion sort with the non-strict
key comparison. -/
def sortByStart (segments : List Seg) : List Seg :=
  List.insertionSort leStart segments

/-- The reindexing loop of `merge_segments`:
`seg["index"] = i; seg.pop("chunk_index", None)`. -/
def reindexFrom (i : Nat) : List Seg → List Seg
  | [] => []
  | s :: rest => { s with index := i, chunk_index := none } :: reindexFrom (i + 1) rest

/-- `merge_segments(segments)`: sort by `start_time`, merge short
segments (defaults `min_duration=2.0`, `max_merged_duration=15.0`),
reindex and drop `chunk_index`. -/
def merge_segments (segments : List Seg) : List Seg :=
  reindexFrom 0 (merge_short_segments 2 15 (sortByStart segments))

/-! ### Duration probe and audio splitter -/

/-- `get_audio_duration`: on any ffprobe failure the `except` branch
returns `0.0`; otherwise the parsed duration. -/
def get_audio_duration (probe : Option ℚ) : ℚ :=
  match probe with
  | some d => d
  | none => 0

/-- The error raised by `split_audio` when the probed duration is zero
(`ValueError("Could not determine audio duration")`). -/
inductive SplitError
  | durationZero
deriving DecidableEq, Repr

/-- `f"chunk_{i:04d}"`: decimal digits zero-padded to width 4. -/
def pad4 (i : Nat) : String :=
  let s := Nat.repr i
  String.mk (List.replicate (4 - s.length) '0' ++ s.data)

/-- `chunk_dir / f"chunk_{i:04d}.mp3"`. -/
def chunkFilePath (chunkDir : String) (i : Nat) : String :=
  chunkDir ++ "/chunk_" ++ pad4 i ++ ".mp3"

/-- The `for i in range(num_chunks)` loop of `split_audio`:
`start_time = i * chunk_duration`,
`duration = min(chunk_duration, total_duration - start_time)`,
`if duration <= 0: break`; each surviving iteration extracts one chunk
file. The fuel is the `range` bound. -/
def splitLoop (total cw : ℚ) (chunkDir : String) : Nat → Nat → List ChunkInfo
  | _, 0 => []
  | i, fuel + 1 =>
    let start : ℚ := i * cw
    let dur := min cw (total - start)
    if dur ≤ 0 then []
    else ⟨i, chunkFilePath chunkDir i, start, dur⟩ :: splitLoop total cw chunkDir (i + 1) fuel

/-- `split_audio`: probe the duration (zero aborts), short audio yields
the single synthetic chunk pointing at the source file (no extraction),
otherwise `num_chunks = int(total/chunk_duration) + 1` loop iterations
extract the chunk files. Returns the chunk list together with the list
of extracted file paths. -/
def split_audio (src chunkDir : String) (cw : ℚ) (probe : Option ℚ) :
    Except SplitError (List ChunkInfo × List String) :=
  let total := get_audio_duration probe
  if total = 0 then .error .durationZero
  else if total ≤ cw then .ok ([⟨0, src, 0, total⟩], [])
  else
    let numChunks := (⌊total / cw⌋).toNat + 1
    let chunks := splitLoop total cw chunkDir 0 numChunks
    .ok (chunks, chunks.map (·.path))

/-! ### Chunk transcriber and concurrency scheduler -/

/-- The timestamp adjustment of `transcribe_chunk`: add the chunk's
global offset to both times and tag with the chunk index. -/
def adjustSeg (chunk : ChunkInfo) (s : PSeg) : Seg :=
  { index := s.index
    start_time := s.start_time + chunk.start_time
    end_time := s.end_time + chunk.start_time
    text := s.text
    chunk_index := some chunk.index }

/-- `transcribe_chunk(chunk, whisper_provider)`. -/
def transcribe_chunk (provider : String → Except ε (List PSeg)) (chunk : ChunkInfo) :
    Except ε (List Seg) :=
  (provider chunk.path).map (fun segs => segs.map (adjustSeg chunk))

/-- The `as_completed` collection loop of `transcribe_chunks_concurrent`:
results are appended in completion order; the first failed future
re-raises its exception. -/
def schedLoop (provider : String → Except ε (List PSeg)) :
    List ChunkInfo → List Seg → Except ε (List Seg)
  | [], acc => .ok acc
  | ch :: rest, acc =>
    match transcribe_chunk provider ch with
    | .ok segs => schedLoop provider rest (acc ++ segs)
    | .error e => .error e

/-- `transcribe_chunks_concurrent(chunks, whisper_provider)` observed at
a given completion order of the futures. -/
def transcribe_chunks_concurrent (provider : String → Except ε (List PSeg))
    (order : List ChunkInfo) : Except ε (List Seg) :=
  schedLoop provider order []

/-! ### Cleanup -/

/-- `cleanup_chunks(chunks)`: the list of chunk files the code removes.
A chunk is skipped iff `chunk.index == 0 and not
chunk.path.endswith("chunk_0000.mp3")`; every other chunk's path is
deleted (the existence check and the empty-directory removal are
filesystem details not modelled). The function is total: in the source
every removal is wrapped in `try/except`, so cleanup never raises. -/
def cleanup_chunks (chunks : List ChunkInfo) : List String :=
  chunks.filterMap fun ch =>
    if ch.index == 0 && !(pyEndsWith ch.path "chunk_0000.mp3") then none
    else some ch.path

/-! ### Pipeline orchestrator (`transcribe_audio`) -/

/-- The errors `transcribe_audio` can raise: the `ValueError` from the
splitter's zero-duration check, or a provider exception re-raised
unchanged. -/
inductive PipeError (ε : Type)
  | probe
  | provider (e : ε)
deriving DecidableEq, Repr

/-- The observable outcome of one `transcribe_audio` run: the returned
value or raised error, the chunk files extracted by ffmpeg, the paths
passed to `whisper_provider.transcribe`, and the files removed by
cleanup. -/
structure RunLog (ε : Type) where
  result : Except (PipeError ε) (List Seg)
  extracted : List String
  transcribed : List String
  removed : List String
deriving Repr

/-- `len(chunks) == 1 and chunks[0].path == audio_path`. -/
def isFastPath (src : String) : List ChunkInfo → Bool
  | [c] => c.path == src
  | _ => false

/-- `transcribe_audio(audio_path, whisper_provider)` with `cleanup=True`,
observed at a given completion order. If splitting raises, `chunks` is
still `[]`, so the `finally` block runs no cleanup; on both the fast
path and the full path (success or provider failure) cleanup runs
before the result or error is surfaced. In the full path every
submitted future runs to completion, so every chunk's file is passed to
the provider even when one job fails. -/
def transcribe_audio (src chunkDir : String) (cw : ℚ) (probe : Option ℚ)
    (provider : String → Except ε (List PSeg)) (order : List ChunkInfo) : RunLog ε :=
  match split_audio src chunkDir cw probe with
  | .error _ => { result := .error .probe, extracted := [], transcribed := [], removed := [] }
  | .ok (chunks, extractedFiles) =>
    if isFastPath src chunks then
      match provider src with
      | .ok segs =>
        { result := .ok (segs.map PSeg.to_dict)
          extracted := extractedFiles
          transcribed := [src]
          removed := cleanup_chunks chunks }
      | .error e =>
        { result := .error (.provider e)
          extracted := extractedFiles
          transcribed := [src]
          removed := cleanup_chunks chunks }
    else
      match transcribe_chunks_concurrent provider order with
      | .ok allSegs =>
        { result := .ok (merge_segments allSegs)
          extracted := extractedFiles
          transcribed := order.map (·.path)
          removed := cleanup_chunks chunks }
      | .error e =>
        { result := .error (.provider e)
          extracted := extractedFiles
          transcribed := order.map (·.path)
          removed := cleanup_chunks chunks }

/-! ## Claim C1: the merge step of the left-to-right pass -/

/-- The claim-side reading of "text ends with a terminal-punctuation
character from the set": its last character is one of them. -/
def endsInTerminal (t : String) : Prop :=
  ∃ c ∈ sentence_endings, t.data.getLast? = some c

theorem endsWithTerminal_iff (t : String) :
    endsWithTerminal t = true ↔ endsInTerminal t := by
  unfold endsWithTerminal endsInTerminal
  cases h : t.data.getLast? with
  | none => simp [h]
  | some c => simp [h, List.contains_iff_exists_mem_beq, eq_comm]

/-- C1: in the left-to-right pass, an accumulated segment `current` and
the next input segment `seg` are merged iff all four conditions hold
(`current` shorter than 2.0s, `current`'s text not ending in a terminal
punctuation character, merged extent at most 15.0s, gap below 1.0s);
the merged segment keeps `current`'s `start_time`, takes `seg`'s
`end_time`, its text is `trim(current.text) + " " + trim(seg.text)`,
and it continues as the accumulated segment absorbing further input.
(The code tests the punctuation on `current["text"].strip()`; texts are
trimmed per the data model, which the hypothesis records.) -/
theorem merge_step_characterization (current seg : Seg) (rest : List Seg)
    (h : pyStrip current.text = current.text) :
    (shouldMerge 2 15 current seg = true ↔
      (current.end_time - current.start_time < 2 ∧
       ¬ endsInTerminal current.text ∧
       seg.end_time - current.start_time ≤ 15 ∧
       seg.start_time - current.end_time < 1)) ∧
    mergeLoop 2 15 current (seg :: rest) =
      (if shouldMerge 2 15 current seg then
        mergeLoop 2 15 (mergeSegs current seg) rest
      else
        current :: mergeLoop 2 15 seg rest) ∧
    (mergeSegs current seg).start_time = current.start_time ∧
    (mergeSegs current seg).end_time = seg.end_time ∧
    (mergeSegs current seg).text = pyStrip current.text ++ " " ++ pyStrip seg.text := by
  refine ⟨?_, rfl, rfl, rfl, rfl⟩
  unfold shouldMerge
  rw [h, ← endsWithTerminal_iff]
  simp [and_assoc]

theorem merge_step_characterization_witness :
    pyStrip (Seg.text ⟨0, 0, 1, "Hello", none⟩) = Seg.text ⟨0, 0, 1, "Hello", none⟩ ∧
    ((shouldMerge 2 15 ⟨0, 0, 1, "Hello", none⟩ ⟨1, 1, 3, "there", none⟩ = true ↔
      (Seg.end_time ⟨0, 0, 1, "Hello", none⟩ - Seg.start_time ⟨0, 0, 1, "Hello", none⟩ < 2 ∧
       ¬ endsInTerminal (Seg.text ⟨0, 0, 1, "Hello", none⟩) ∧
       Seg.end_time ⟨1, 1, 3, "there", none⟩ - Seg.start_time ⟨0, 0, 1, "Hello", none⟩ ≤ 15 ∧
       Seg.start_time ⟨1, 1, 3, "there", none⟩ - Seg.end_time ⟨0, 0, 1, "Hello", none⟩ < 1)) ∧
    mergeLoop 2 15 ⟨0, 0, 1, "Hello", none⟩ (⟨1, 1, 3, "there", none⟩ :: []) =
      (if shouldMerge 2 15 ⟨0, 0, 1, "Hello", none⟩ ⟨1, 1, 3, "there", none⟩ then
        mergeLoop 2 15 (mergeSegs ⟨0, 0, 1, "Hello", none⟩ ⟨1, 1, 3, "there", none⟩) []
      else
        ⟨0, 0, 1, "Hello", none⟩ :: mergeLoop 2 15 ⟨1, 1, 3, "there", none⟩ []) ∧
    (mergeSegs ⟨0, 0, 1, "Hello", none⟩ ⟨1, 1, 3, "there", none⟩).start_time
        = Seg.start_time ⟨0, 0, 1, "Hello", none⟩ ∧
    (mergeSegs ⟨0, 0, 1, "Hello", none⟩ ⟨1, 1, 3, "there", none⟩).end_time
        = Seg.end_time ⟨1, 1, 3, "there", none⟩ ∧
    (mergeSegs ⟨0, 0, 1, "Hello", none⟩ ⟨1, 1, 3, "there", none⟩).text
        = pyStrip (Seg.text ⟨0, 0, 1, "Hello", none⟩) ++ " "
            ++ pyStrip (Seg.text ⟨1, 1, 3, "there", none⟩)) :=
  ⟨by decide, merge_step_characterization ⟨0, 0, 1, "Hello", none⟩ ⟨1, 1, 3, "there", none⟩ []
      (by decide)⟩

/-! ## Claim C2: the splitter's chunk layout -/

theorem ceil_toNat_le_iff (total cw : ℚ) (hc : 0 < cw) (i : ℕ) :
    (⌈total / cw⌉).toNat ≤ i ↔ total ≤ i * cw := by
  rw [Int.toNat_le, Int.ceil_le, div_le_iff₀ hc]
  push_cast
  constructor <;> intro h <;> linarith

/-- The chunk built at loop index `j` of `split_audio`. -/
def mkChunk (total cw : ℚ) (dir : String) (j : ℕ) : ChunkInfo :=
  ⟨j, chunkFilePath dir j, (j : ℚ) * cw, min cw (total - j * cw)⟩

theorem splitLoop_eq (total cw : ℚ) (dir : String) (hc : 0 < cw) :
    ∀ (fuel i : ℕ), splitLoop total cw dir i fuel =
      (List.range' i (min fuel ((⌈total / cw⌉).toNat - i))).map (mkChunk total cw dir) := by
  intro fuel
  induction fuel with
  | zero => intro i; simp [splitLoop]
  | succ n ih =>
    intro i
    by_cases hK : (⌈total / cw⌉).toNat ≤ i
    · have h1 : total ≤ i * cw := (ceil_toNat_le_iff total cw hc i).mp hK
      have h2 : min cw (total - i * cw) ≤ 0 := min_le_of_right_le (by linarith)
      simp only [splitLoop, if_pos h2, Nat.sub_eq_zero_of_le hK]
      simp
    · push_neg at hK
      have h1 : ¬ total ≤ i * cw := fun h => absurd ((ceil_toNat_le_iff total cw hc i).mpr h)
        (not_le.mpr hK)
      have h2 : ¬ (min cw (total - i * cw) ≤ 0) := by
        rw [min_le_iff]
        push_neg
        exact ⟨hc, by push_neg at h1; linarith⟩
      simp only [splitLoop, if_neg h2]
      rw [ih (i + 1)]
      have hsub : (⌈total / cw⌉).toNat - i = ((⌈total / cw⌉).toNat - (i + 1)) + 1 := by
        omega
      rw [hsub, Nat.succ_min_succ, List.range'_succ, List.map_cons]
      rfl

theorem split_audio_eq_of_lt (src dir : String) (total cw : ℚ) (hc : 0 < cw) (h : cw < total) :
    split_audio src dir cw (some total) =
      .ok ((List.range ((⌈total / cw⌉).toNat)).map (mkChunk total cw dir),
        ((List.range ((⌈total / cw⌉).toNat)).map (mkChunk total cw dir)).map (·.path)) := by
  have ht : (0 : ℚ) < total := lt_trans hc h
  simp only [split_audio, get_audio_duration]
  rw [if_neg (by exact ne_of_gt ht), if_neg (not_le.mpr h)]
  have hfl : 0 ≤ ⌊total / cw⌋ := Int.floor_nonneg.mpr (le_of_lt (div_pos ht hc))
  have hcf : ⌈total / cw⌉ ≤ ⌊total / cw⌋ + 1 := Int.ceil_le_floor_add_one _
  have hmin : min ((⌊total / cw⌋).toNat + 1) ((⌈total / cw⌉).toNat - 0)
      = (⌈total / cw⌉).toNat := by omega
  rw [splitLoop_eq total cw dir hc _ 0, hmin, ← List.range_eq_range']

theorem sum_min_durations (total cw : ℚ) (m : ℕ) (h : ∀ j < m, min cw (total - j * cw) = cw) :
    ((List.range m).map (fun j : ℕ => min cw (total - (j : ℚ) * cw))).sum = (m : ℚ) * cw := by
  induction m with
  | zero => simp
  | succ n ih =>
    rw [List.range_succ, List.map_append, List.sum_append, ih (fun j hj => h j (by omega)),
      List.map_singleton, List.sum_singleton, h n (by omega)]
    push_cast
    ring

/-- C2: for every positive `total_duration` and `chunk_window`: if
`total ≤ cw` the splitter returns exactly the single synthetic chunk
`{index 0, path source, start 0, duration total}` and extracts no file;
otherwise it returns exactly `⌈total/cw⌉` chunks, chunk `i` having
`start_offset = i·cw`, every chunk but the last having duration `cw`,
the last having duration `total - (n-1)·cw`, and the durations summing
to `total` exactly. -/
theorem splitter_chunk_layout (src dir : String) (total cw : ℚ)
    (ht : 0 < total) (hc : 0 < cw) :
    (total ≤ cw →
      split_audio src dir cw (some total) = .ok ([⟨0, src, 0, total⟩], [])) ∧
    (cw < total →
      ∃ chunks : List ChunkInfo,
        split_audio src dir cw (some total) = .ok (chunks, chunks.map (·.path)) ∧
        chunks.length = (⌈total / cw⌉).toNat ∧
        (∀ i (hi : i < chunks.length),
          (chunks.get ⟨i, hi⟩).index = i ∧
          (chunks.get ⟨i, hi⟩).start_time = (i : ℚ) * cw ∧
          (i + 1 < chunks.length → (chunks.get ⟨i, hi⟩).duration = cw)) ∧
        (∀ hne : chunks ≠ [],
          (chunks.getLast hne).duration = total - ((chunks.length - 1 : ℕ) : ℚ) * cw) ∧
        (chunks.map (·.duration)).sum = total) := by
  constructor
  · intro hle
    simp only [split_audio, get_audio_duration]
    rw [if_neg (by exact ne_of_gt ht), if_pos hle]
  · intro hlt
    set K := (⌈total / cw⌉).toNat with hK
    have hdivpos : 0 < total / cw := div_pos ht hc
    have hKcast : (K : ℤ) = ⌈total / cw⌉ := Int.toNat_of_nonneg (by positivity)
    have hKQ : total ≤ (K : ℚ) * cw := by
      have h1 : total / cw ≤ (⌈total / cw⌉ : ℚ) := Int.le_ceil _
      rw [div_le_iff₀ hc] at h1
      calc total ≤ (⌈total / cw⌉ : ℚ) * cw := h1
        _ = (K : ℚ) * cw := by rw [← hKcast]; push_cast; ring_nf
    have hK1 : 1 ≤ K := by
      have : 1 ≤ ⌈total / cw⌉ := Int.ceil_pos.mpr hdivpos
      omega
    refine ⟨(List.range K).map (mkChunk total cw dir), split_audio_eq_of_lt src dir total cw hc hlt, by simp, ?_, ?_, ?_⟩
    · intro i hi
      have hi' : i < K := by simpa using hi
      rw [List.get_map]
      refine ⟨by simp [mkChunk], by simp [mkChunk], ?_⟩
      intro hsucc
      have hsucc' : i + 1 < K := by simpa using hsucc
      have : ((i : ℚ) + 1) * cw < total := by
        have h1 : ((i + 1 : ℕ) : ℤ) < ⌈total / cw⌉ := by omega
        have h2 : ((i + 1 : ℕ) : ℚ) < total / cw := by
          have := Int.lt_ceil.mp h1
          push_cast at this ⊢
          exact this
        rw [lt_div_iff₀ hc] at h2
        push_cast at h2
        linarith
      simp only [mkChunk, List.get_range]
      exact min_eq_left (by linarith)
    · intro hne
      have hlen : ((List.range K).map (mkChunk total cw dir)).length = K := by simp
      rw [List.getLast_eq_get]
      rw [List.get_map]
      simp only [hlen, List.get_range, mkChunk]
      have hKm1 : ((K - 1 : ℕ) : ℚ) = (K : ℚ) - 1 := by
        push_cast [Nat.cast_sub hK1]
        ring
      rw [hKm1]
      have : total - ((K : ℚ) - 1) * cw ≤ cw := by nlinarith
      rw [min_eq_right this]
    · rw [List.map_map]
      have hcomp : (ChunkInfo.duration ∘ mkChunk total cw dir)
          = fun j : ℕ => min cw (total - (j : ℚ) * cw) := rfl
      rw [hcomp]
      have hKsplit : K = (K - 1) + 1 := by omega
      rw [hKsplit, List.range_succ, List.map_append, List.sum_append,
        sum_min_durations total cw (K - 1) ?_]
      · simp only [List.map_singleton, List.sum_singleton]
        have h1 : ((K - 1 : ℕ) : ℚ) = (K : ℚ) - 1 := by
          push_cast [Nat.cast_sub hK1]
          ring
        rw [h1]
        have h2 : total - ((K : ℚ) - 1) * cw ≤ cw := by nlinarith
        rw [min_eq_right h2]
        ring
      · intro j hj
        have h1 : ((j + 1 : ℕ) : ℤ) < ⌈total / cw⌉ := by omega
        have h2 : ((j + 1 : ℕ) : ℚ) < total / cw := by
          have := Int.lt_ceil.mp h1
          push_cast at this ⊢
          exact this
        rw [lt_div_iff₀ hc] at h2
        push_cast at h2
        exact min_eq_left (by linarith)

theorem splitter_chunk_layout_witness :
    ((0 : ℚ) < 1500 ∧ (0 : ℚ) < 600) ∧
    (((1500 : ℚ) ≤ 600 →
      split_audio "a.mp3" "cache/chunks/a" 600 (some 1500) = .ok ([⟨0, "a.mp3", 0, 1500⟩], [])) ∧
    ((600 : ℚ) < 1500 →
      ∃ chunks : List ChunkInfo,
        split_audio "a.mp3" "cache/chunks/a" 600 (some 1500) = .ok (chunks, chunks.map (·.path)) ∧
        chunks.length = (⌈(1500 : ℚ) / 600⌉).toNat ∧
        (∀ i (hi : i < chunks.length),
          (chunks.get ⟨i, hi⟩).index = i ∧
          (chunks.get ⟨i, hi⟩).start_time = (i : ℚ) * 600 ∧
          (i + 1 < chunks.length → (chunks.get ⟨i, hi⟩).duration = 600)) ∧
        (∀ hne : chunks ≠ [],
          (chunks.getLast hne).duration = 1500 - ((chunks.length - 1 : ℕ) : ℚ) * 600) ∧
        (chunks.map (·.duration)).sum = 1500)) :=
  ⟨⟨by norm_num, by norm_num⟩,
    splitter_chunk_layout "a.mp3" "cache/chunks/a" 1500 600 (by norm_num) (by norm_num)⟩

/-! ## Claim C6: the timeline reconciler's ordering -/

/-- The ordering the C6 claim asserts for the reconciled list: ascending
`start_time`, with equal `start_time` pairs ordered by `source_chunk`
ascending. -/
def claimedReconcileOrder (l : List Seg) : Prop :=
  List.Pairwise (fun a b => a.start_time < b.start_time ∨
    (a.start_time = b.start_time ∧ a.chunk_index.getD 0 ≤ b.chunk_index.getD 0)) l

/-- C6 counterexample: two segments share `start_time = 0` and arrive
with `source_chunk` 1 before 0; `sorted` is stable and keyed only on
`start_time`, so the output keeps arrival order `[chunk 1, chunk 0]` —
not `source_chunk` ascending. -/
theorem reconciler_tiebreak_counterexample :
    sortByStart [⟨0, 0, 1, "a", some 1⟩, ⟨1, 0, 1, "b", some 0⟩]
        = [⟨0, 0, 1, "a", some 1⟩, ⟨1, 0, 1, "b", some 0⟩] ∧
    ¬ claimedReconcileOrder
        (sortByStart [⟨0, 0, 1, "a", some 1⟩, ⟨1, 0, 1, "b", some 0⟩]) := by
  constructor
  · decide
  · have h1 : sortByStart [⟨0, 0, 1, "a", some 1⟩, ⟨1, 0, 1, "b", some 0⟩]
        = [⟨0, 0, 1, "a", some 1⟩, ⟨1, 0, 1, "b", some 0⟩] := by decide
    rw [h1]
    unfold claimedReconcileOrder
    decide

/-- C6 amended: the reconciler returns the aggregated segments sorted
ascending by `start_time` as a stable sort — a permutation of the input
in which any subsequence already non-decreasing in `start_time` (in
particular, segments with equal `start_time`) keeps its arrival order.
There is no `source_chunk` tie-break. -/
theorem reconciler_sorted_stable (segments c : List Seg)
    (hc1 : c.Pairwise leStart) (hc2 : c.Sublist segments) :
    List.Sorted leStart (sortByStart segments) ∧
    (sortByStart segments).Perm segments ∧
    c.Sublist (sortByStart segments) := by
  refine ⟨List.sorted_insertionSort leStart segments,
    List.perm_insertionSort leStart segments,
    List.sublist_insertionSort hc1 hc2⟩

theorem reconciler_sorted_stable_witness :
    (List.Pairwise leStart
        [(⟨0, 0, 1, "a", some 1⟩ : Seg), ⟨1, 0, 1, "b", some 0⟩] ∧
      List.Sublist [(⟨0, 0, 1, "a", some 1⟩ : Seg), ⟨1, 0, 1, "b", some 0⟩]
        [⟨0, 0, 1, "a", some 1⟩, ⟨1, 0, 1, "b", some 0⟩]) ∧
    (List.Sorted leStart
        (sortByStart [⟨0, 0, 1, "a", some 1⟩, ⟨1, 0, 1, "b", some 0⟩]) ∧
      (sortByStart [⟨0, 0, 1, "a", some 1⟩, ⟨1, 0, 1, "b", some 0⟩]).Perm
        [⟨0, 0, 1, "a", some 1⟩, ⟨1, 0, 1, "b", some 0⟩] ∧
      List.Sublist [(⟨0, 0, 1, "a", some 1⟩ : Seg), ⟨1, 0, 1, "b", some 0⟩]
        (sortByStart [⟨0, 0, 1, "a", some 1⟩, ⟨1, 0, 1, "b", some 0⟩])) :=
  ⟨⟨by decide, by decide⟩,
    reconciler_sorted_stable [⟨0, 0, 1, "a", some 1⟩, ⟨1, 0, 1, "b", some 0⟩]
      [⟨0, 0, 1, "a", some 1⟩, ⟨1, 0, 1, "b", some 0⟩] (by decide) (by decide)⟩

/-! ## Claim C3: the scheduler's aggregation -/

deriving instance DecidableEq for Except

theorem schedLoop_ok (provider : String → Except ε (List PSeg)) (psegs : ChunkInfo → List PSeg) :
    ∀ (order : List ChunkInfo) (acc : List Seg),
      (∀ ch ∈ order, provider ch.path = .ok (psegs ch)) →
      schedLoop provider order acc
        = .ok (acc ++ order.flatMap fun ch => (psegs ch).map (adjustSeg ch)) := by
  intro order
  induction order with
  | nil => intro acc _; simp [schedLoop]
  | cons ch rest ih =>
    intro acc h
    have hch : provider ch.path = .ok (psegs ch) := h ch (by simp)
    simp only [schedLoop, transcribe_chunk, hch, Except.map]
    rw [ih _ (fun c hc => h c (by simp [hc]))]
    simp

/-- C3: for every chunk list, provider, and completion order (any
permutation of the chunks), the scheduler succeeds and its aggregated
list is exactly — as a multiset, no segment lost or duplicated — the
segments the capability returned per chunk, each shifted by its chunk's
`start_offset` on both `start_time` and `end_time` and tagged with its
chunk's index (`adjustSeg`). -/
theorem scheduler_aggregation (provider : String → Except ε (List PSeg))
    (chunks order : List ChunkInfo) (psegs : ChunkInfo → List PSeg)
    (hperm : order.Perm chunks)
    (h : ∀ ch ∈ chunks, provider ch.path = .ok (psegs ch)) :
    ∃ res, transcribe_chunks_concurrent provider order = .ok res ∧
      res.Perm (chunks.flatMap fun ch => (psegs ch).map (adjustSeg ch)) ∧
      ∀ ch ∈ chunks, ∀ p ∈ psegs ch,
        adjustSeg ch p ∈ res ∧
        (adjustSeg ch p).start_time = p.start_time + ch.start_time ∧
        (adjustSeg ch p).end_time = p.end_time + ch.start_time ∧
        (adjustSeg ch p).chunk_index = some ch.index := by
  have horder : ∀ ch ∈ order, provider ch.path = .ok (psegs ch) :=
    fun ch hch => h ch (hperm.mem_iff.mp hch)
  refine ⟨order.flatMap fun ch => (psegs ch).map (adjustSeg ch), ?_, ?_, ?_⟩
  · simpa using schedLoop_ok provider psegs order [] horder
  · exact hperm.flatMap_right _
  · intro ch hch p hp
    refine ⟨?_, rfl, rfl, rfl⟩
    have hmem : adjustSeg ch p ∈ chunks.flatMap fun c => (psegs c).map (adjustSeg c) :=
      List.mem_flatMap.mpr ⟨ch, hch, List.mem_map_of_mem _ hp⟩
    exact ((hperm.flatMap_right _).mem_iff).mpr hmem

theorem scheduler_aggregation_witness :
    (([(⟨1, "d/chunk_0001.mp3", 600, 600⟩ : ChunkInfo), ⟨0, "d/chunk_0000.mp3", 0, 600⟩]).Perm
        [(⟨0, "d/chunk_0000.mp3", 0, 600⟩ : ChunkInfo), ⟨1, "d/chunk_0001.mp3", 600, 600⟩] ∧
      ∀ ch ∈ [(⟨0, "d/chunk_0000.mp3", 0, 600⟩ : ChunkInfo), ⟨1, "d/chunk_0001.mp3", 600, 600⟩],
        (fun p => if p == "d/chunk_0000.mp3" then (Except.ok [⟨0, 0, 2, "x"⟩] : Except Nat (List PSeg))
          else .ok [⟨0, 1, 3, "y"⟩]) ch.path
          = .ok ((fun ch : ChunkInfo => if ch.index == 0 then [(⟨0, 0, 2, "x"⟩ : PSeg)]
              else [⟨0, 1, 3, "y"⟩]) ch)) ∧
    (∃ res, transcribe_chunks_concurrent
        (fun p => if p == "d/chunk_0000.mp3" then (Except.ok [⟨0, 0, 2, "x"⟩] : Except Nat (List PSeg))
          else .ok [⟨0, 1, 3, "y"⟩])
        [⟨1, "d/chunk_0001.mp3", 600, 600⟩, ⟨0, "d/chunk_0000.mp3", 0, 600⟩] = .ok res ∧
      res.Perm (([(⟨0, "d/chunk_0000.mp3", 0, 600⟩ : ChunkInfo), ⟨1, "d/chunk_0001.mp3", 600, 600⟩]).flatMap
        fun ch => ((fun ch : ChunkInfo => if ch.index == 0 then [(⟨0, 0, 2, "x"⟩ : PSeg)]
          else [⟨0, 1, 3, "y"⟩]) ch).map (adjustSeg ch)) ∧
      ∀ ch ∈ [(⟨0, "d/chunk_0000.mp3", 0, 600⟩ : ChunkInfo), ⟨1, "d/chunk_0001.mp3", 600, 600⟩],
        ∀ p ∈ (fun ch : ChunkInfo => if ch.index == 0 then [(⟨0, 0, 2, "x"⟩ : PSeg)]
          else [⟨0, 1, 3, "y"⟩]) ch,
          adjustSeg ch p ∈ res ∧
          (adjustSeg ch p).start_time = p.start_time + ch.start_time ∧
          (adjustSeg ch p).end_time = p.end_time + ch.start_time ∧
          (adjustSeg ch p).chunk_index = some ch.index) :=
  ⟨⟨by decide, by decide⟩,
    scheduler_aggregation
      (fun p => if p == "d/chunk_0000.mp3" then (Except.ok [⟨0, 0, 2, "x"⟩] : Except Nat (List PSeg))
        else .ok [⟨0, 1, 3, "y"⟩])
      [⟨0, "d/chunk_0000.mp3", 0, 600⟩, ⟨1, "d/chunk_0001.mp3", 600, 600⟩]
      [⟨1, "d/chunk_0001.mp3", 600, 600⟩, ⟨0, "d/chunk_0000.mp3", 0, 600⟩]
      (fun ch => if ch.index == 0 then [⟨0, 0, 2, "x"⟩] else [⟨0, 1, 3, "y"⟩])
      (by decide) (by decide)⟩

/-! ## Claim C10: probe failure aborts before extraction and transcription -/

/-- C10: whenever the duration probe cannot determine the duration
(tool failure, unparsable output, missing file — the `except` branch
returns `0.0`) or the duration resolves to zero, the pipeline raises
the splitter's `ValueError` and aborts before any chunk extraction and
before any transcription call. -/
theorem probe_failure_aborts (src dir : String) (cw : ℚ)
    (provider : String → Except ε (List PSeg)) (order : List ChunkInfo)
    (probe : Option ℚ) (h : probe = none ∨ probe = some 0) :
    (transcribe_audio src dir cw probe provider order).result = .error .probe ∧
    (transcribe_audio src dir cw probe provider order).extracted = [] ∧
    (transcribe_audio src dir cw probe provider order).transcribed = [] := by
  have hz : get_audio_duration probe = 0 := by
    rcases h with rfl | rfl <;> rfl
  have hsplit : split_audio src dir cw probe = .error .durationZero := by
    simp [split_audio, hz]
  simp [transcribe_audio, hsplit]

theorem probe_failure_aborts_witness :
    ((none : Option ℚ) = none ∨ (none : Option ℚ) = some 0) ∧
    ((transcribe_audio "a.mp3" "cache/chunks/a" 600 none
        (fun _ => (Except.ok [] : Except Nat (List PSeg))) []).result = .error .probe ∧
      (transcribe_audio "a.mp3" "cache/chunks/a" 600 none
        (fun _ => (Except.ok [] : Except Nat (List PSeg))) []).extracted = [] ∧
      (transcribe_audio "a.mp3" "cache/chunks/a" 600 none
        (fun _ => (Except.ok [] : Except Nat (List PSeg))) []).transcribed = []) :=
  ⟨Or.inl rfl,
    probe_failure_aborts "a.mp3" "cache/chunks/a" 600
      (fun _ => (Except.ok [] : Except Nat (List PSeg))) [] none (Or.inl rfl)⟩

/-! ## Claim C7: transcription failure propagates, cleanup still runs -/

theorem schedLoop_error (provider : String → Except ε (List PSeg)) :
    ∀ (order : List ChunkInfo) (acc : List Seg),
      (∃ ch ∈ order, ∃ e, provider ch.path = .error e) →
      ∃ e, schedLoop provider order acc = .error e ∧
        ∃ ch ∈ order, provider ch.path = .error e := by
  intro order
  induction order with
  | nil =>
    rintro acc ⟨ch, hmem, _⟩
    cases hmem
  | cons ch rest ih =>
    rintro acc ⟨ch0, hch0, e0, he0⟩
    cases hp : provider ch.path with
    | error e =>
      exact ⟨e, by simp [schedLoop, transcribe_chunk, hp, Except.map], ch, by simp, hp⟩
    | ok segs =>
      have hrest : ∃ c ∈ rest, ∃ e, provider c.path = .error e := by
        rcases List.mem_cons.mp hch0 with rfl | hmem
        · rw [hp] at he0
          cases he0
        · exact ⟨ch0, hmem, e0, he0⟩
      obtain ⟨e, hsched, c, hc, hpc⟩ := ih (acc ++ segs.map (adjustSeg ch)) hrest
      exact ⟨e, by simp only [schedLoop, transcribe_chunk, hp, Except.map]; exact hsched,
        c, by simp [hc], hpc⟩

/-- C7: if splitting succeeded and some chunk's transcription call
raises, the pipeline raises an error wrapping the very exception raised
by one of the failing chunks (same class to its caller), and chunk
cleanup still executes. Cleanup itself is a total function of the chunk
list (in the source every removal is inside `try/except`), so it never
raises, on any exit path. -/
theorem transcription_failure_propagates (src dir : String) (cw : ℚ) (probe : Option ℚ)
    (provider : String → Except ε (List PSeg)) (order chunks : List ChunkInfo)
    (ex : List String)
    (hsplit : split_audio src dir cw probe = .ok (chunks, ex))
    (horder : order.Perm chunks)
    (hfail : ∃ ch ∈ chunks, ∃ e, provider ch.path = .error e) :
    ∃ e, (∃ ch ∈ chunks, provider ch.path = .error e) ∧
      (transcribe_audio src dir cw probe provider order).result = .error (.provider e) ∧
      (transcribe_audio src dir cw probe provider order).removed = cleanup_chunks chunks := by
  by_cases hfp : isFastPath src chunks = true
  · obtain ⟨c, rfl, hpath⟩ : ∃ c, chunks = [c] ∧ c.path = src := by
      match chunks, hfp with
      | [c], hfp =>
        exact ⟨c, rfl, by simpa [isFastPath] using hfp⟩
    obtain ⟨ch, hch, e, he⟩ := hfail
    rw [List.mem_singleton] at hch
    subst hch
    rw [hpath] at he
    refine ⟨e, ⟨ch, List.mem_singleton_self ch, by rw [hpath]; exact he⟩, ?_, ?_⟩
    · simp [transcribe_audio, hsplit, hfp, he]
    · simp [transcribe_audio, hsplit, hfp, he]
  · have hfail' : ∃ ch ∈ order, ∃ e, provider ch.path = .error e := by
      obtain ⟨ch, hch, e, he⟩ := hfail
      exact ⟨ch, horder.mem_iff.mpr hch, e, he⟩
    obtain ⟨e, hsched, ch, hch, hpc⟩ := schedLoop_error provider order [] hfail'
    have hsched' : transcribe_chunks_concurrent provider order = .error e := hsched
    refine ⟨e, ⟨ch, horder.mem_iff.mp hch, hpc⟩, ?_, ?_⟩
    · simp [transcribe_audio, hsplit, hfp, hsched']
    · simp [transcribe_audio, hsplit, hfp, hsched']

theorem transcription_failure_propagates_witness :
    (split_audio "a.mp3" "cache/chunks/a" 600 (some 100)
        = .ok ([⟨0, "a.mp3", 0, 100⟩], []) ∧
      ([(⟨0, "a.mp3", 0, 100⟩ : ChunkInfo)]).Perm [⟨0, "a.mp3", 0, 100⟩] ∧
      (∃ ch ∈ [(⟨0, "a.mp3", 0, 100⟩ : ChunkInfo)], ∃ e,
        (fun _ : String => (Except.error 7 : Except Nat (List PSeg))) ch.path
          = .error e)) ∧
    (∃ e, (∃ ch ∈ [(⟨0, "a.mp3", 0, 100⟩ : ChunkInfo)],
        (fun _ : String => (Except.error 7 : Except Nat (List PSeg))) ch.path = .error e) ∧
      (transcribe_audio "a.mp3" "cache/chunks/a" 600 (some 100)
        (fun _ : String => (Except.error 7 : Except Nat (List PSeg)))
        [⟨0, "a.mp3", 0, 100⟩]).result = .error (.provider e) ∧
      (transcribe_audio "a.mp3" "cache/chunks/a" 600 (some 100)
        (fun _ : String => (Except.error 7 : Except Nat (List PSeg)))
        [⟨0, "a.mp3", 0, 100⟩]).removed = cleanup_chunks [⟨0, "a.mp3", 0, 100⟩]) :=
  ⟨⟨by norm_num [split_audio, get_audio_duration],
      List.Perm.refl _,
      ⟨⟨0, "a.mp3", 0, 100⟩, List.mem_singleton_self _, 7, rfl⟩⟩,
    transcription_failure_propagates "a.mp3" "cache/chunks/a" 600 (some 100)
      (fun _ : String => (Except.error 7 : Except Nat (List PSeg)))
      [⟨0, "a.mp3", 0, 100⟩] [⟨0, "a.mp3", 0, 100⟩] []
      (by norm_num [split_audio, get_audio_duration])
      (List.Perm.refl _)
      ⟨⟨0, "a.mp3", 0, 100⟩, List.mem_singleton_self _, 7, rfl⟩⟩

/-! ## Claim C8: cleanup and the original source file -/

/-- C8 (code bug): on the fast path the single chunk's `path` is the
original source file. The skip guard is
`chunk.index == 0 and not chunk.path.endswith("chunk_0000.mp3")`, so a
source file that happens to be named `chunk_0000.mp3` is deleted by
cleanup — contradicting both the claim and the code's own comment
("Don't delete the original file"). A normally named source is spared. -/
theorem cleanup_deletes_source_named_like_chunk :
    cleanup_chunks [⟨0, "cache/media/chunk_0000.mp3", 0, 100⟩]
        = ["cache/media/chunk_0000.mp3"] ∧
    cleanup_chunks [⟨0, "cache/media/video.mp4", 0, 100⟩] = [] := by
  decide

/-! ## Claim C5: the segment merger is idempotent -/

theorem shouldMerge_iff (mn mx : ℚ) (c s : Seg) :
    shouldMerge mn mx c s = true ↔
      (c.end_time - c.start_time < mn ∧
       endsWithTerminal (pyStrip c.text) = false ∧
       s.end_time - c.start_time ≤ mx ∧
       s.start_time - c.end_time < 1) := by
  unfold shouldMerge
  simp [and_assoc, Bool.not_eq_true']

theorem mergeLoop_ne_nil (mn mx : ℚ) :
    ∀ (l : List Seg) (c : Seg), mergeLoop mn mx c l ≠ [] := by
  intro l
  induction l with
  | nil => intro c; simp [mergeLoop]
  | cons seg rest ih =>
    intro c
    by_cases hsm : shouldMerge mn mx c seg
    · simpa [mergeLoop, hsm] using ih (mergeSegs c seg)
    · simp [mergeLoop, hsm]

theorem mergeLoop_head?_start (mn mx : ℚ) :
    ∀ (l : List Seg) (c h : Seg), (mergeLoop mn mx c l).head? = some h →
      h.start_time = c.start_time := by
  intro l
  induction l with
  | nil =>
    intro c h hh
    simp [mergeLoop] at hh
    rw [← hh]
  | cons seg rest ih =>
    intro c h hh
    by_cases hsm : shouldMerge mn mx c seg
    · rw [mergeLoop, if_pos hsm] at hh
      exact ih (mergeSegs c seg) h hh
    · rw [mergeLoop, if_neg hsm] at hh
      simp at hh
      rw [← hh]

theorem mergeLoop_head?_of_long (mn mx : ℚ) (l : List Seg) (c : Seg)
    (hc : mn ≤ c.end_time - c.start_time) :
    (mergeLoop mn mx c l).head? = some c := by
  cases l with
  | nil => rfl
  | cons seg rest =>
    have hsm : shouldMerge mn mx c seg = false := by
      rw [Bool.eq_false_iff, Ne, shouldMerge_iff]
      rintro ⟨h1, -, -, -⟩
      linarith
    rw [mergeLoop, if_neg (by simp [hsm])]
    rfl

theorem mergeLoop_chain_noMerge (mn mx : ℚ) (hM : 2 * mn + 1 ≤ mx) :
    ∀ (l : List Seg) (c : Seg),
      List.Chain' (fun a b => shouldMerge mn mx a b = false) (mergeLoop mn mx c l) := by
  intro l
  induction l with
  | nil => intro c; simp [mergeLoop]
  | cons seg rest ih =>
    intro c
    by_cases hsm : shouldMerge mn mx c seg
    · rw [mergeLoop, if_pos hsm]
      exact ih (mergeSegs c seg)
    · rw [mergeLoop, if_neg hsm]
      rw [List.chain'_cons']
      refine ⟨?_, ih seg⟩
      intro h hh
      have hstart : h.start_time = seg.start_time :=
        mergeLoop_head?_start mn mx rest seg h hh
      have hsm' : shouldMerge mn mx c seg = false := by simpa using hsm
      rw [Bool.eq_false_iff, Ne, shouldMerge_iff] at hsm'
      rw [Bool.eq_false_iff, Ne, shouldMerge_iff]
      by_cases h1 : c.end_time - c.start_time < mn
      case neg => rintro ⟨h1', -, -, -⟩; exact h1 h1'
      by_cases h2 : endsWithTerminal (pyStrip c.text) = false
      case neg => rintro ⟨-, h2', -, -⟩; exact h2 h2'
      by_cases h4 : seg.start_time - c.end_time < 1
      case neg =>
        rintro ⟨-, -, -, h4'⟩
        rw [hstart] at h4'
        exact h4 h4'
      have h3 : ¬ (seg.end_time - c.start_time ≤ mx) := by
        intro h3
        exact hsm' ⟨h1, h2, h3, h4⟩
      push_neg at h3
      have hlong : mn ≤ seg.end_time - seg.start_time := by linarith
      have : h = seg := by
        have := mergeLoop_head?_of_long mn mx rest seg hlong
        rw [this] at hh
        exact (Option.some_inj.mp hh).symm
      subst this
      rw [shouldMerge_iff] at hsm
      exact hsm

theorem mergeLoop_of_chain_noMerge (mn mx : ℚ) :
    ∀ (l : List Seg) (c : Seg),
      List.Chain' (fun a b => shouldMerge mn mx a b = false) (c :: l) →
      mergeLoop mn mx c l = c :: l := by
  intro l
  induction l with
  | nil => intro c _; rfl
  | cons seg rest ih =>
    intro c h
    rw [List.chain'_cons] at h
    rw [mergeLoop, if_neg (by simp [h.1]), ih seg h.2]

/-- C5: the merger is idempotent — applying the merge pass (with its
defaults `min_duration = 2.0`, `max_merged_duration = 15.0`) to its own
output returns that output unchanged, for every chronologically sorted
input list. -/
theorem merger_idempotent (l : List Seg) (hsorted : List.Chain' leStart l) :
    merge_short_segments 2 15 (merge_short_segments 2 15 l)
      = merge_short_segments 2 15 l := by
  cases l with
  | nil => rfl
  | cons s rest =>
    have hchain := mergeLoop_chain_noMerge 2 15 (by norm_num) rest s
    cases hout : mergeLoop 2 15 s rest with
    | nil => exact absurd hout (mergeLoop_ne_nil 2 15 rest s)
    | cons o os =>
      rw [hout] at hchain
      show merge_short_segments 2 15 (mergeLoop 2 15 s rest) = mergeLoop 2 15 s rest
      rw [hout]
      show mergeLoop 2 15 o os = o :: os
      exact mergeLoop_of_chain_noMerge 2 15 os o hchain

theorem merger_idempotent_witness :
    List.Chain' leStart
      [(⟨0, 0, 1, "a", none⟩ : Seg), ⟨1, 2, 9, "b", none⟩, ⟨2, 20, 21, "c", none⟩] ∧
    merge_short_segments 2 15 (merge_short_segments 2 15
        [(⟨0, 0, 1, "a", none⟩ : Seg), ⟨1, 2, 9, "b", none⟩, ⟨2, 20, 21, "c", none⟩])
      = merge_short_segments 2 15
        [(⟨0, 0, 1, "a", none⟩ : Seg), ⟨1, 2, 9, "b", none⟩, ⟨2, 20, 21, "c", none⟩] :=
  ⟨by norm_num [List.chain'_cons, List.chain'_singleton, leStart],
    merger_idempotent
      [(⟨0, 0, 1, "a", none⟩ : Seg), ⟨1, 2, 9, "b", none⟩, ⟨2, 20, 21, "c", none⟩]
      (by norm_num [List.chain'_cons, List.chain'_singleton, leStart])⟩

/-! ## Claim C4: pipeline output invariants -/

theorem mergeLoop_chain_start (mn mx : ℚ) :
    ∀ (l : List Seg) (c : Seg), List.Chain' leStart (c :: l) →
      List.Chain' leStart (mergeLoop mn mx c l) := by
  intro l
  induction l with
  | nil => intro c _; simp [mergeLoop]
  | cons seg rest ih =>
    intro c h
    rw [List.chain'_cons] at h
    obtain ⟨hcs, hrest⟩ := h
    by_cases hsm : shouldMerge mn mx c seg
    · rw [mergeLoop, if_pos hsm]
      refine ih (mergeSegs c seg) ?_
      rw [List.chain'_cons'] at hrest ⊢
      refine ⟨?_, hrest.2⟩
      intro y hy
      have : leStart seg y := hrest.1 y hy
      unfold leStart mergeSegs at *
      simp only at this ⊢
      exact le_trans hcs this
    · rw [mergeLoop, if_neg hsm]
      rw [List.chain'_cons']
      refine ⟨?_, ih seg hrest⟩
      intro y hy
      have : y.start_time = seg.start_time := mergeLoop_head?_start mn mx rest seg y hy
      unfold leStart
      rw [this]
      exact hcs

theorem merge_short_chain_start (mn mx : ℚ) (l : List Seg)
    (h : List.Chain' leStart l) :
    List.Chain' leStart (merge_short_segments mn mx l) := by
  cases l with
  | nil => simp [merge_short_segments]
  | cons s rest => exact mergeLoop_chain_start mn mx rest s h

theorem reindexFrom_map_index :
    ∀ (l : List Seg) (i : Nat), (reindexFrom i l).map (·.index) = List.range' i l.length := by
  intro l
  induction l with
  | nil => intro i; simp [reindexFrom]
  | cons s rest ih =>
    intro i
    simp only [reindexFrom, List.map_cons, List.length_cons, List.range'_succ, ih]

theorem reindexFrom_length : ∀ (l : List Seg) (i : Nat), (reindexFrom i l).length = l.length := by
  intro l
  induction l with
  | nil => intro i; rfl
  | cons s rest ih => intro i; simp [reindexFrom, ih]

theorem reindexFrom_chunk_index :
    ∀ (l : List Seg) (i : Nat), ∀ s ∈ reindexFrom i l, s.chunk_index = none := by
  intro l
  induction l with
  | nil => intro i s hs; cases hs
  | cons x rest ih =>
    intro i s hs
    rcases List.mem_cons.mp hs with rfl | hs'
    · rfl
    · exact ih (i + 1) s hs'

theorem reindexFrom_head?_start :
    ∀ (l : List Seg) (i : Nat) (h : Seg), (reindexFrom i l).head? = some h →
      ∃ x, l.head? = some x ∧ h.start_time = x.start_time := by
  intro l
  cases l with
  | nil => intro i h hh; cases hh
  | cons x rest =>
    intro i h hh
    simp only [reindexFrom, List.head?_cons, Option.some_inj] at hh
    exact ⟨x, rfl, by rw [← hh]⟩

theorem reindexFrom_chain_start :
    ∀ (l : List Seg) (i : Nat), List.Chain' leStart l →
      List.Chain' leStart (reindexFrom i l) := by
  intro l
  induction l with
  | nil => intro i _; simp [reindexFrom]
  | cons x rest ih =>
    intro i h
    rw [List.chain'_cons'] at h
    simp only [reindexFrom]
    rw [List.chain'_cons']
    refine ⟨?_, ih (i + 1) h.2⟩
    intro y hy
    obtain ⟨z, hz, hyz⟩ := reindexFrom_head?_start rest (i + 1) y hy
    have : leStart x z := h.1 z hz
    unfold leStart at *
    simp only [hyz]
    exact this

theorem merge_segments_invariants (segs : List Seg) :
    (merge_segments segs).map (·.index) = List.range (merge_segments segs).length ∧
    List.Chain' leStart (merge_segments segs) ∧
    ∀ s ∈ merge_segments segs, s.chunk_index = none := by
  unfold merge_segments
  refine ⟨?_, ?_, ?_⟩
  · rw [reindexFrom_map_index, reindexFrom_length, List.range_eq_range']
  · refine reindexFrom_chain_start _ 0 ?_
    refine merge_short_chain_start 2 15 _ ?_
    exact (List.sorted_insertionSort leStart segs).chain'
  · exact reindexFrom_chunk_index _ 0

/-- C4: every successful pipeline run — the fast path and the full
split/schedule/reconcile/merge path — returns a segment list with
contiguous zero-based indices, non-decreasing `start_time`, and no
`chunk_index` (`source_chunk`) field on any record. On the fast path
this relies on the transcription capability's documented contract
(zero-based contiguous indices, chronologically ordered output), taken
as a hypothesis. -/
theorem pipeline_output_invariants (src dir : String) (cw : ℚ) (probe : Option ℚ)
    (provider : String → Except ε (List PSeg)) (order : List ChunkInfo) (res : List Seg)
    (hprov : ∀ p segs, provider p = .ok segs →
      segs.map (·.index) = List.range segs.length ∧
      List.Chain' (fun a b : PSeg => a.start_time ≤ b.start_time) segs)
    (hres : (transcribe_audio src dir cw probe provider order).result = .ok res) :
    res.map (·.index) = List.range res.length ∧
    List.Chain' leStart res ∧
    ∀ s ∈ res, s.chunk_index = none := by
  unfold transcribe_audio at hres
  cases hsplit : split_audio src dir cw probe with
  | error e => rw [hsplit] at hres; cases hres
  | ok chex =>
    obtain ⟨chunks, ex⟩ := chex
    rw [hsplit] at hres
    dsimp only at hres
    by_cases hfp : isFastPath src chunks = true
    · rw [if_pos hfp] at hres
      cases hp : provider src with
      | error e => rw [hp] at hres; cases hres
      | ok segs =>
        rw [hp] at hres
        obtain ⟨hidx, hchain⟩ := hprov src segs hp
        have hres' : segs.map PSeg.to_dict = res := by
          simpa using hres
        subst hres'
        refine ⟨?_, ?_, ?_⟩
        · rw [List.map_map, List.length_map]
          rw [show ((fun s : Seg => s.index) ∘ PSeg.to_dict) = fun p : PSeg => p.index from rfl]
          exact hidx
        · rw [List.chain'_map]
          exact hchain
        · intro s hs
          obtain ⟨p, _, rfl⟩ := List.mem_map.mp hs
          rfl
    · rw [if_neg hfp] at hres
      cases hsched : transcribe_chunks_concurrent provider order with
      | error e => rw [hsched] at hres; cases hres
      | ok allSegs =>
        rw [hsched] at hres
        have hres' : merge_segments allSegs = res := by simpa using hres
        subst hres'
        exact merge_segments_invariants allSegs

theorem pipeline_output_invariants_witness :
    (∀ p segs, (fun _ : String => (Except.ok [(⟨0, 0, 2, "x"⟩ : PSeg), ⟨1, 2, 3, "y"⟩]
        : Except Nat (List PSeg))) p = .ok segs →
      segs.map (·.index) = List.range segs.length ∧
      List.Chain' (fun a b : PSeg => a.start_time ≤ b.start_time) segs) ∧
    ((transcribe_audio "a.mp3" "cache/chunks/a" 600 (some 100)
        (fun _ : String => (Except.ok [(⟨0, 0, 2, "x"⟩ : PSeg), ⟨1, 2, 3, "y"⟩]
          : Except Nat (List PSeg))) []).result
        = .ok ([(⟨0, 0, 2, "x"⟩ : PSeg), ⟨1, 2, 3, "y"⟩].map PSeg.to_dict)) ∧
    (([(⟨0, 0, 2, "x"⟩ : PSeg), ⟨1, 2, 3, "y"⟩].map PSeg.to_dict).map (·.index)
        = List.range ([(⟨0, 0, 2, "x"⟩ : PSeg), ⟨1, 2, 3, "y"⟩].map PSeg.to_dict).length ∧
      List.Chain' leStart ([(⟨0, 0, 2, "x"⟩ : PSeg), ⟨1, 2, 3, "y"⟩].map PSeg.to_dict) ∧
      ∀ s ∈ [(⟨0, 0, 2, "x"⟩ : PSeg), ⟨1, 2, 3, "y"⟩].map PSeg.to_dict,
        s.chunk_index = none) := by
  have hprov : ∀ p segs, (fun _ : String => (Except.ok [(⟨0, 0, 2, "x"⟩ : PSeg), ⟨1, 2, 3, "y"⟩]
      : Except Nat (List PSeg))) p = .ok segs →
      segs.map (·.index) = List.range segs.length ∧
      List.Chain' (fun a b : PSeg => a.start_time ≤ b.start_time) segs := by
    intro p segs h
    cases h
    constructor
    · decide
    · norm_num [List.chain'_cons, List.chain'_singleton]
  have hres : (transcribe_audio "a.mp3" "cache/chunks/a" 600 (some 100)
      (fun _ : String => (Except.ok [(⟨0, 0, 2, "x"⟩ : PSeg), ⟨1, 2, 3, "y"⟩]
        : Except Nat (List PSeg))) []).result
      = .ok ([(⟨0, 0, 2, "x"⟩ : PSeg), ⟨1, 2, 3, "y"⟩].map PSeg.to_dict) := by
    have hsplit : split_audio "a.mp3" "cache/chunks/a" 600 (some 100)
        = .ok ([⟨0, "a.mp3", 0, 100⟩], []) := by
      norm_num [split_audio, get_audio_duration]
    simp [transcribe_audio, hsplit, isFastPath]
  exact ⟨hprov, hres,
    pipeline_output_invariants "a.mp3" "cache/chunks/a" 600 (some 100)
      (fun _ : String => (Except.ok [(⟨0, 0, 2, "x"⟩ : PSeg), ⟨1, 2, 3, "y"⟩]
        : Except Nat (List PSeg))) []
      ([(⟨0, 0, 2, "x"⟩ : PSeg), ⟨1, 2, 3, "y"⟩].map PSeg.to_dict) hprov hres⟩

/-! ## Claim C9: the merger preserves total time coverage -/

/-- `MergedRun out blk`: output segment `out` was produced by coalescing
the non-empty consecutive input block `blk`: `out` takes the first
block element's `start_time` and the last block element's `end_time`,
and a singleton block is emitted entirely unchanged. -/
def MergedRun (out : Seg) (blk : List Seg) : Prop :=
  ∃ b0 bs, blk = b0 :: bs ∧
    out.start_time = b0.start_time ∧
    out.end_time = ((b0 :: bs).getLast (List.cons_ne_nil b0 bs)).end_time ∧
    (bs = [] → out = b0)

theorem getLast_cons_cons_end (a b : Seg) (l : List Seg) :
    ((a :: b :: l).getLast (List.cons_ne_nil a (b :: l))).end_time
      = ((b :: l).getLast (List.cons_ne_nil b l)).end_time := by
  rw [List.getLast_cons (List.cons_ne_nil b l)]

theorem mergeLoop_runs (mn mx : ℚ) :
    ∀ (l : List Seg) (c : Seg),
      ∃ blocks : List (List Seg),
        List.Forall₂ MergedRun (mergeLoop mn mx c l) blocks ∧
        blocks.flatten = c :: l := by
  intro l
  induction l with
  | nil =>
    intro c
    refine ⟨[[c]], ?_, by simp⟩
    refine List.Forall₂.cons ?_ List.Forall₂.nil
    exact ⟨c, [], rfl, rfl, rfl, fun _ => rfl⟩
  | cons seg rest ih =>
    intro c
    by_cases hsm : shouldMerge mn mx c seg
    · obtain ⟨blocks, hf, hj⟩ := ih (mergeSegs c seg)
      rw [mergeLoop, if_pos hsm]
      cases hout : mergeLoop mn mx (mergeSegs c seg) rest with
      | nil => exact absurd hout (mergeLoop_ne_nil mn mx rest (mergeSegs c seg))
      | cons o os =>
        rw [hout] at hf
        cases hf with
        | cons hOB hrest =>
          rename_i B Bs
          obtain ⟨b0, bs, rfl, hstart, hend, hsing⟩ := hOB
          have hj' : b0 :: (bs ++ Bs.flatten) = mergeSegs c seg :: rest := by
            simpa using hj
          have hb0 : b0 = mergeSegs c seg := (List.cons_eq_cons.mp hj').1
          have htail : bs ++ Bs.flatten = rest := (List.cons_eq_cons.mp hj').2
          refine ⟨(c :: seg :: bs) :: Bs, ?_, by simp [htail]⟩
          refine List.Forall₂.cons ?_ hrest
          refine ⟨c, seg :: bs, rfl, ?_, ?_, fun h => by cases h⟩
          · rw [hstart, hb0]
            rfl
          · rw [hend]
            cases bs with
            | nil =>
              rw [hb0]
              rfl
            | cons b1 bs' =>
              rw [getLast_cons_cons_end b0 b1 bs',
                getLast_cons_cons_end c seg (b1 :: bs'),
                getLast_cons_cons_end seg b1 bs']
    · obtain ⟨blocks, hf, hj⟩ := ih seg
      rw [mergeLoop, if_neg hsm]
      refine ⟨[c] :: blocks, ?_, by simp [hj]⟩
      refine List.Forall₂.cons ?_ hf
      exact ⟨c, [], rfl, rfl, rfl, fun _ => rfl⟩

/-- C9: the merger preserves total time coverage — the output list
decomposes the input into consecutive non-empty blocks (the maximal
merged runs): each output segment's `start_time` is its block's first
input segment's `start_time` and its `end_time` is its block's last
input segment's `end_time`; a segment not part of any merge (a
singleton block) is emitted entirely unchanged. -/
theorem merger_preserves_coverage (l : List Seg) :
    ∃ blocks : List (List Seg),
      blocks.flatten = l ∧
      List.Forall₂ MergedRun (merge_short_segments 2 15 l) blocks := by
  cases l with
  | nil => exact ⟨[], rfl, List.Forall₂.nil⟩
  | cons s rest =>
    obtain ⟨blocks, hf, hj⟩ := mergeLoop_runs 2 15 rest s
    exact ⟨blocks, hj, hf⟩

end LinguaMaster
